import Mathlib

/-
Formal model of the chat-agent core in src/open-interpreter.py.

Strings are modelled as lists of characters. The Python functions of the
source file are translated one by one:
  is_file_task, process_message      -> is_file_task, routeOf, process_message
  stream_ollama_response             -> accumulate, filtered_response,
                                        decoderResult, stream_body,
                                        stream_ollama_response
  execute_with_interpreter           -> interpreterResponse, exec_body,
                                        execute_with_interpreter
  append_to_json_log                 -> append_to_json_log over an explicit
                                        filesystem state
Exceptions are modelled with Except; the filesystem is an association list
from file names to parsed file contents.
-/

namespace OI

/-- Strings of the source program, modelled as lists of characters. -/
abbrev Str := List Char

/-- The ASCII fragment of the Python whitespace test used by str.strip. -/
def pyIsSpace (c : Char) : Bool :=
  c == ' ' || c == '\t' || c == '\n' || c == '\r' || c == '\x0b' || c == '\x0c'

/-- Python str.lower, modelled on the ASCII fragment via Char.toLower. -/
def lowered (s : Str) : Str := s.map Char.toLower

/-- Python str.strip with no argument: drop whitespace from both ends. -/
def pyStrip (s : Str) : Str :=
  ((s.dropWhile pyIsSpace).reverse.dropWhile pyIsSpace).reverse

/-- Boolean test that pat is a prefix of s. -/
def prefixCheck : Str → Str → Bool
  | [], _ => true
  | _ :: _, [] => false
  | a :: as, b :: bs => a == b && prefixCheck as bs

/-- Python substring membership, pat in hay. -/
def strContains : Str → Str → Bool
  | [], pat => pat.isEmpty
  | h :: t, pat => prefixCheck pat (h :: t) || strContains t pat

/-- Fuel-bounded scan of hay.replace(pat, ""): every step consumes at
least one character and one unit of fuel, so with fuel at least the
length of the string the fuel never runs out. The explicit fuel keeps the
recursion structural, hence kernel-evaluable. -/
def pyRemoveAllFuel (pat : Str) : Nat → Str → Str
  | _, [] => []
  | 0, s => s
  | Nat.succ n, c :: rest =>
    if pat ≠ [] ∧ prefixCheck pat (c :: rest) = true then
      pyRemoveAllFuel pat n ((c :: rest).drop pat.length)
    else
      c :: pyRemoveAllFuel pat n rest

/-- Python hay.replace(pat, "") for a non-empty pat: scan left to right and
drop every occurrence of pat. For an empty pat it returns the string
unchanged, as Python does when replacing the empty string by the empty
string. -/
def pyRemoveAll (pat s : Str) : Str := pyRemoveAllFuel pat s.length s

/-- The fixed keyword list of is_file_task (line 154 of the source). -/
def routing_keywords : List Str :=
  ["file".toList, "folder".toList, "create".toList, "write".toList,
   "save".toList, "list".toList, "delete".toList]

/-- is_file_task (lines 153-155): any keyword occurs in the lowercased
message. -/
def is_file_task (msg : Str) : Bool :=
  routing_keywords.any (fun kw => strContains (lowered msg) kw)

/-- The routing decision of the spec. -/
inductive Route where
  | Execution
  | Generation
deriving DecidableEq

/-- The routing condition of process_message (line 158): force flag or
keyword hit. -/
def routeOf (message : Str) (force : Bool) : Route :=
  if force || is_file_task message then Route.Execution else Route.Generation

/-- One streaming frame, abstracted at the protocol level of section 6 of
the spec: a line of the response body either fails json.loads (malformed)
or parses to a JSON record whose optional response field carries a token
fragment. A record without the field behaves as token = empty, exactly as
chunk.get with an empty default (line 99 of the source). -/
inductive Frame where
  | malformed
  | record (token : Str)
deriving DecidableEq

/-- The accumulation loop of stream_ollama_response (lines 93-104): each
parsed frame whose token is non-empty appends its token to
complete_response; malformed frames are skipped by the inner except. -/
def accumulate : List Frame → Str
  | [] => []
  | Frame.malformed :: fs => accumulate fs
  | Frame.record t :: fs => (if t.isEmpty then [] else t) ++ accumulate fs

/-- The two reasoning-delimiter markers removed at line 107. -/
def think_open : Str := "<think>".toList

def think_close : Str := "</think>".toList

/-- Line 107 of the source applied to an accumulated string:
replace both markers by the empty string, then strip. -/
def filtered_of (resp : Str) : Str :=
  pyStrip (pyRemoveAll think_close (pyRemoveAll think_open resp))

/-- filtered_response at line 107, as a function of the frame sequence. -/
def filtered_response (frames : List Frame) : Str :=
  filtered_of (accumulate frames)

/-- The fallback acknowledgment of line 124. -/
def fallbackText : Str := "I understand. How can I help you?".toList

/-- The value returned at line 124: filtered_response or the fallback,
with Python or-semantics on strings (empty string is falsy). -/
def decoderResult (frames : List Frame) : Str :=
  if (filtered_response frames).isEmpty then fallbackText
  else filtered_response frames

/-- The token fragments of the frames that parse, in arrival order. -/
def parsedTokens : List Frame → List Str
  | [] => []
  | Frame.malformed :: fs => parsedTokens fs
  | Frame.record t :: fs => t :: parsedTokens fs

/-- Helper: concatenation of a list of strings in order. -/
def joinStr : List Str → Str
  | [] => []
  | s :: rest => s ++ joinStr rest

/-- The clean result as the spec words it for C2: the concatenation, in
arrival order, of the non-empty token fragments of the frames that parse,
with the two markers removed and whitespace trimmed. -/
def specCleanResult (frames : List Frame) : Str :=
  pyStrip (pyRemoveAll think_close (pyRemoveAll think_open
    (joinStr ((parsedTokens frames).filter (fun t => !t.isEmpty)))))

/-- A Python value, restricted to the shapes the adapter inspects:
None, strings, integers, lists and string-keyed dicts. -/
inductive PyVal where
  | none
  | str (s : Str)
  | int (n : Int)
  | list (xs : List PyVal)
  | dict (entries : List (Str × PyVal))

/-- Python truthiness on the modelled values. -/
def pyTruthy : PyVal → Bool
  | PyVal.none => false
  | PyVal.str s => !s.isEmpty
  | PyVal.int n => decide (n ≠ 0)
  | PyVal.list xs => !xs.isEmpty
  | PyVal.dict es => !es.isEmpty

/-- Python d.get(k) with default None: the value of the first entry with
key k, or None when absent. -/
def dictGet (es : List (Str × PyVal)) (k : Str) : PyVal :=
  match es with
  | [] => PyVal.none
  | p :: rest => if p.1 == k then p.2 else dictGet rest k

/-- Python a or b: a when a is truthy, b otherwise. -/
def pyOr (a b : PyVal) : PyVal := if pyTruthy a then a else b

/-- An apostrophe character, used by the repr of strings. -/
def squote : Char := Char.ofNat 39

/-- An opening curly brace. -/
def obrace : Char := Char.ofNat 123

/-- A closing curly brace. -/
def cbrace : Char := Char.ofNat 125

mutual
/-- Python repr on the modelled values, without escape handling inside
strings (the claims never depend on the exact rendered text). -/
def pyRepr : PyVal → Str
  | PyVal.none => "None".toList
  | PyVal.str s => squote :: (s ++ [squote])
  | PyVal.int n => (toString n).toList
  | PyVal.list xs => '[' :: (pyReprItems xs ++ [']'])
  | PyVal.dict es => obrace :: (pyReprPairs es ++ [cbrace])

/-- Comma-separated reprs of list items. -/
def pyReprItems : List PyVal → Str
  | [] => []
  | [x] => pyRepr x
  | x :: y :: rest => pyRepr x ++ ", ".toList ++ pyReprItems (y :: rest)

/-- Comma-separated reprs of dict entries. -/
def pyReprPairs : List (Str × PyVal) → Str
  | [] => []
  | [(k, v)] => (squote :: (k ++ [squote])) ++ ": ".toList ++ pyRepr v
  | (k, v) :: q :: rest =>
      (squote :: (k ++ [squote])) ++ ": ".toList ++ pyRepr v ++
        ", ".toList ++ pyReprPairs (q :: rest)
end

/-- Python str(v): the string itself for strings, repr otherwise. -/
def pyStr : PyVal → Str
  | PyVal.str s => s
  | v => pyRepr v

/-- The dict key "content" probed at line 138. -/
def contentKey : Str := "content".toList

/-- The dict key "output" probed at line 138. -/
def outputKey : Str := "output".toList

/-- The fixed fallback value "Task completed." of lines 138 and 142. -/
def taskCompleted : PyVal := PyVal.str "Task completed.".toList

/-- The normalization of lines 135-142 of execute_with_interpreter:
a non-empty list takes its last record; a dict last record yields
content or output or the fixed fallback under Python or-semantics;
another last record is stringified; anything else yields the fallback. -/
def interpreterResponse (result : PyVal) : PyVal :=
  match result with
  | PyVal.list (x :: xs) =>
    match (x :: xs).getLast (List.cons_ne_nil x xs) with
    | PyVal.dict es =>
        pyOr (dictGet es contentKey) (pyOr (dictGet es outputKey) taskCompleted)
    | last => PyVal.str (pyStr last)
  | _ => taskCompleted

/-- The parsed content of one log file: either a well-formed JSON array of
entries, or content on which json.load (or the list append on a non-array
value) raises — the representative log I/O fault of section 7 of the
spec. -/
inductive FileContent where
  | arr (entries : List PyVal)
  | corrupt

/-- The log directory, as an association list from file names to parsed
file contents. -/
abbrev FS := List (Str × FileContent)

/-- An exception, carried as its message string. -/
abbrev Err := Str

/-- Reading a file name: os.path.exists is the some test, the payload is
the parsed content. -/
def fsRead : FS → Str → Option FileContent
  | [], _ => Option.none
  | p :: rest, name => if p.1 == name then some p.2 else fsRead rest name

/-- Writing a file name: replace the first binding, or add a new one. -/
def fsWrite : FS → Str → FileContent → FS
  | [], name, c => [(name, c)]
  | p :: rest, name, c =>
      if p.1 == name then (name, c) :: rest else p :: fsWrite rest name c

/-- append_to_json_log (lines 54-64): if no file exists, write a singleton
array; else deserialize, append, rewrite. A corrupt existing file makes
json.load raise, and nothing in the function catches it. -/
def append_to_json_log (fs : FS) (filename : Str) (data : PyVal) :
    Except Err FS :=
  match fsRead fs filename with
  | Option.none =>
      Except.ok (fsWrite fs filename (FileContent.arr [data]))
  | some (FileContent.arr existing) =>
      Except.ok (fsWrite fs filename (FileContent.arr (existing ++ [data])))
  | some FileContent.corrupt => Except.error "json.load failed".toList

/-- The entries a log currently holds: the array content when the file
exists and is well-formed, empty otherwise. -/
def fsEntries (fs : FS) (name : Str) : List PyVal :=
  match fsRead fs name with
  | some (FileContent.arr xs) => xs
  | _ => []

/-- Sequential appends of a list of entries to one log; stops at the
first fault, as a sequence of raising calls would. -/
def appendMany (fs : FS) (name : Str) (entries : List PyVal) :
    Except Err FS :=
  match entries with
  | [] => Except.ok fs
  | e :: rest =>
    match append_to_json_log fs name e with
    | Except.ok fs1 => appendMany fs1 name rest
    | Except.error err => Except.error err

/-- Boolean success test on Except. -/
def exOk {ε α : Type _} : Except ε α → Bool
  | Except.ok _ => true
  | Except.error _ => false

/-- The clean generation log name (line 121). -/
def clean_log_name : Str := "ollama_response_clean_log.json".toList

/-- The raw generation log name (line 122). -/
def raw_log_name : Str := "ollama_response_raw_log.json".toList

/-- The execution log name (line 148). -/
def exec_log_name : Str := "open_interpreter_log.json".toList

/-- One transcript entry with keys timestamp, user, response
(lines 109-119 and 143-147). -/
def logEntry (ts user : Str) (resp : PyVal) : PyVal :=
  PyVal.dict [("timestamp".toList, PyVal.str ts),
              ("user".toList, PyVal.str user),
              ("response".toList, resp)]

/-- clean_data of lines 109-113: the filtered response. -/
def cleanEntry (ts msg : Str) (frames : List Frame) : PyVal :=
  logEntry ts msg (PyVal.str (filtered_response frames))

/-- raw_data of lines 115-119: the unfiltered accumulation, stripped. -/
def rawEntry (ts msg : Str) (frames : List Frame) : PyVal :=
  logEntry ts msg (PyVal.str (pyStrip (accumulate frames)))

/-- The observable input of one generation call: the outcome of the
network phase (connection setup, request send, frame read), and the frame
sequence delivered when that phase succeeds. -/
structure DecoderInput where
  transport : Option Err
  frames : List Frame

/-- The try-block of stream_ollama_response (lines 91-124): a transport
fault raises; otherwise the frames are accumulated and filtered, the
clean entry then the raw entry are appended (each append may raise), and
the filtered response or the fallback is returned. The first component is
the filesystem state when control leaves the block. -/
def stream_body (fs : FS) (message ts : Str) (inp : DecoderInput) :
    FS × Except Err Str :=
  match inp.transport with
  | some e => (fs, Except.error e)
  | Option.none =>
    match append_to_json_log fs clean_log_name (cleanEntry ts message inp.frames) with
    | Except.error e => (fs, Except.error e)
    | Except.ok fs1 =>
      match append_to_json_log fs1 raw_log_name (rawEntry ts message inp.frames) with
      | Except.error e => (fs1, Except.error e)
      | Except.ok fs2 => (fs2, Except.ok (decoderResult inp.frames))

/-- stream_ollama_response (lines 66-127): the try-block, with the
except-clause of lines 125-127 converting any raised exception into the
descriptive error string. -/
def stream_ollama_response (fs : FS) (message ts : Str) (inp : DecoderInput) :
    FS × Except Err Str :=
  match stream_body fs message ts inp with
  | (fs1, Except.ok s) => (fs1, Except.ok s)
  | (fs1, Except.error e) =>
      (fs1, Except.ok ("Error connecting to Ollama: ".toList ++ e))

/-- The try-block of execute_with_interpreter (lines 131-149): the chat
call either raises or returns a result value; on success the result is
normalized, one entry is appended to the execution log (which may raise),
and the normalized response is returned. -/
def exec_body (fs : FS) (task ts : Str) (chatResult : Except Err PyVal) :
    FS × Except Err PyVal :=
  match chatResult with
  | Except.error e => (fs, Except.error e)
  | Except.ok result =>
    match append_to_json_log fs exec_log_name
        (logEntry ts task (interpreterResponse result)) with
    | Except.error e => (fs, Except.error e)
    | Except.ok fs1 => (fs1, Except.ok (interpreterResponse result))

/-- execute_with_interpreter (lines 129-151): the try-block, with the
except-clause of lines 150-151 converting any raised exception into the
error-prefixed string. -/
def execute_with_interpreter (fs : FS) (task ts : Str)
    (chatResult : Except Err PyVal) : FS × Except Err PyVal :=
  match exec_body fs task ts chatResult with
  | (fs1, Except.ok r) => (fs1, Except.ok r)
  | (fs1, Except.error e) =>
      (fs1, Except.ok (PyVal.str ("[Error] Interpreter failed: ".toList ++ e)))

/-- process_message (lines 157-163): dispatch on the routing decision. -/
def process_message (fs : FS) (message : Str) (force : Bool) (ts : Str)
    (dinp : DecoderInput) (einp : Except Err PyVal) : FS × Except Err PyVal :=
  match routeOf message force with
  | Route.Execution => execute_with_interpreter fs message ts einp
  | Route.Generation =>
    match stream_ollama_response fs message ts dinp with
    | (fs1, Except.ok s) => (fs1, Except.ok (PyVal.str s))
    | (fs1, Except.error e) => (fs1, Except.error e)

lemma prefixCheck_iff (pat s : Str) :
    prefixCheck pat s = true ↔ ∃ r, s = pat ++ r := by
  induction pat generalizing s with
  | nil => simp [prefixCheck]
  | cons a as ih =>
    cases s with
    | nil => simp [prefixCheck]
    | cons b bs =>
      simp only [prefixCheck, Bool.and_eq_true, beq_iff_eq, ih,
        List.cons_append, List.cons.injEq]
      constructor
      · rintro ⟨rfl, r, rfl⟩; exact ⟨r, rfl, rfl⟩
      · rintro ⟨r, rfl, rfl⟩; exact ⟨rfl, r, rfl⟩

lemma strContains_iff (hay pat : Str) :
    strContains hay pat = true ↔ ∃ l r, hay = l ++ pat ++ r := by
  induction hay with
  | nil =>
    simp only [strContains, List.isEmpty_iff]
    constructor
    · rintro rfl; exact ⟨[], [], rfl⟩
    · rintro ⟨l, r, h⟩
      rcases List.append_eq_nil.mp h.symm with ⟨h1, h2⟩
      exact (List.append_eq_nil.mp h1).2
  | cons h t ih =>
    simp only [strContains, Bool.or_eq_true, prefixCheck_iff, ih]
    constructor
    · rintro (⟨r, hr⟩ | ⟨l, r, hr⟩)
      · exact ⟨[], r, by simpa using hr⟩
      · exact ⟨h :: l, r, by simp [hr]⟩
    · rintro ⟨l, r, he⟩
      cases l with
      | nil => exact Or.inl ⟨r, by simpa using he⟩
      | cons h1 l1 =>
        simp only [List.cons_append, List.cons.injEq] at he
        exact Or.inr ⟨l1, r, he.2⟩

lemma is_file_task_iff (msg : Str) :
    is_file_task msg = true ↔
      ∃ kw ∈ routing_keywords, ∃ l r, lowered msg = l ++ kw ++ r := by
  simp [is_file_task, List.any_eq_true, strContains_iff]

lemma toLower_of_space (c : Char) (h : pyIsSpace c = true) :
    Char.toLower c = c := by
  simp only [pyIsSpace, Bool.or_eq_true, beq_iff_eq] at h
  rcases h with ((((h | h) | h) | h) | h) | h <;> subst h <;> decide

lemma keyword_not_in_space {msg : Str} (hws : ∀ c ∈ msg, pyIsSpace c = true)
    {kw : Str} (hkw : kw ∈ routing_keywords) :
    ¬ ∃ l r, lowered msg = l ++ kw ++ r := by
  rintro ⟨l, r, he⟩
  have hall : ∀ c ∈ lowered msg, pyIsSpace c = true := by
    intro c hc
    rcases List.mem_map.mp hc with ⟨d, hd, rfl⟩
    have hsp := hws d hd
    rw [toLower_of_space d hsp]
    exact hsp
  have hmem : ∀ c ∈ kw, pyIsSpace c = true := by
    intro c hc
    apply hall
    rw [he]
    simp [hc]
  simp only [routing_keywords, List.mem_cons, List.mem_singleton,
    List.not_mem_nil, or_false] at hkw
  rcases hkw with rfl | rfl | rfl | rfl | rfl | rfl | rfl <;>
    exact absurd hmem (by decide)

/-- C1: the Task Router returns Execution whenever the force flag is set;
without the flag it returns Execution exactly when the lowercased message
contains one of the fixed keywords as a substring, and Generation
otherwise; a whitespace-only (in particular empty) message yields
Generation. The router is a pure function of the message and the flag. -/
theorem task_router_classification (msg : Str) (force : Bool) :
    (routeOf msg true = Route.Execution) ∧
    (routeOf msg force = Route.Execution ↔
      force = true ∨ ∃ kw ∈ routing_keywords, ∃ l r, lowered msg = l ++ kw ++ r) ∧
    (routeOf msg force = Route.Generation ↔
      ¬ (force = true ∨ ∃ kw ∈ routing_keywords, ∃ l r, lowered msg = l ++ kw ++ r)) ∧
    ((∀ c ∈ msg, pyIsSpace c = true) → routeOf msg false = Route.Generation) := by
  have hiff : (force || is_file_task msg) = true ↔
      (force = true ∨ ∃ kw ∈ routing_keywords, ∃ l r, lowered msg = l ++ kw ++ r) := by
    simp [Bool.or_eq_true, is_file_task_iff]
  refine ⟨by simp [routeOf], ?_, ?_, ?_⟩
  · constructor
    · intro h
      by_cases hc : (force || is_file_task msg) = true
      · exact hiff.mp hc
      · simp [routeOf, hc] at h
    · intro h
      simp [routeOf, hiff.mpr h]
  · constructor
    · intro h
      intro hcond
      have := hiff.mpr hcond
      simp [routeOf, this] at h
    · intro h
      have hc : (force || is_file_task msg) = false := by
        cases hcb : (force || is_file_task msg) with
        | false => rfl
        | true => exact absurd (hiff.mp hcb) h
      simp [routeOf, hc]
  · intro hws
    have hfalse : is_file_task msg = false := by
      cases hb : is_file_task msg with
      | false => rfl
      | true =>
        rcases (is_file_task_iff msg).mp hb with ⟨kw, hkw, hsub⟩
        exact absurd hsub (keyword_not_in_space hws hkw)
    simp [routeOf, hfalse]

/-- Witness for C1: a whitespace-only message is routed to Generation. -/
theorem task_router_classification_witness :
    routeOf " ".toList false = Route.Generation :=
  (task_router_classification " ".toList false).2.2.2 (by decide)

lemma accumulate_eq_join (frames : List Frame) :
    accumulate frames =
      joinStr ((parsedTokens frames).filter (fun t => !t.isEmpty)) := by
  induction frames with
  | nil => rfl
  | cons f rest ih =>
    cases f with
    | malformed => simpa [accumulate, parsedTokens] using ih
    | record t =>
      cases ht : t.isEmpty with
      | true =>
        have : t = [] := by simpa [List.isEmpty_iff] using ht
        simp [accumulate, parsedTokens, ht, ih, this]
      | false => simp [accumulate, parsedTokens, ht, ih, joinStr]

lemma accumulate_insert (l r : List Frame) :
    accumulate (l ++ Frame.malformed :: r) = accumulate (l ++ r) := by
  induction l with
  | nil => simp [accumulate]
  | cons f t ih => cases f <;> simp [accumulate, ih]

/-- C2: the clean result of the decoder equals the concatenation, in
arrival order with no reordering or deduplication, of the non-empty token
fragments of the frames that parse, with the two literal reasoning
markers removed and surrounding whitespace trimmed; inserting a malformed
frame anywhere leaves the clean result unchanged, because malformed
frames are skipped rather than aborting the stream. -/
theorem decoder_clean_concatenation :
    (∀ frames, filtered_response frames = specCleanResult frames) ∧
    (∀ l r, filtered_response (l ++ Frame.malformed :: r) =
      filtered_response (l ++ r)) := by
  constructor
  · intro frames
    simp [filtered_response, filtered_of, specCleanResult, accumulate_eq_join]
  · intro l r
    simp [filtered_response, accumulate_insert]

lemma fallback_ne_nil : fallbackText ≠ [] := by decide

lemma decoderResult_ne_nil (frames : List Frame) : decoderResult frames ≠ [] := by
  unfold decoderResult
  by_cases hf : (filtered_response frames).isEmpty = true
  · rw [if_pos hf]; exact fallback_ne_nil
  · rw [if_neg hf]
    intro hnil
    exact hf (by simp [hnil])

lemma ollama_err_ne_nil (e : Err) :
    ("Error connecting to Ollama: ".toList ++ e) ≠ [] := by
  intro h
  rcases List.append_eq_nil.mp h with ⟨h1, _⟩
  exact absurd h1 (by decide)

/-- C7: when the accumulated text is empty after marker filtering and
trimming, the decoder returns the fixed fallback acknowledgment; and the
string the decoder hands back to its caller is never empty, on any
path. -/
theorem decoder_fallback_nonempty :
    (∀ frames,
      (filtered_response frames = [] → decoderResult frames = fallbackText) ∧
      decoderResult frames ≠ []) ∧
    (∀ fs msg ts dinp s,
      (stream_ollama_response fs msg ts dinp).2 = Except.ok s → s ≠ []) := by
  constructor
  · intro frames
    refine ⟨?_, decoderResult_ne_nil frames⟩
    intro hf
    simp [decoderResult, hf]
  · intro fs msg ts dinp s hok
    rcases dinp with ⟨tr, frames⟩
    cases tr with
    | some e =>
      simp only [stream_ollama_response, stream_body] at hok
      have hs : s = "Error connecting to Ollama: ".toList ++ e := by
        simpa using hok.symm
      rw [hs]
      exact ollama_err_ne_nil e
    | none =>
      cases h1 : append_to_json_log fs clean_log_name (cleanEntry ts msg frames) with
      | error e =>
        simp only [stream_ollama_response, stream_body, h1] at hok
        have hs : s = "Error connecting to Ollama: ".toList ++ e := by
          simpa using hok.symm
        rw [hs]
        exact ollama_err_ne_nil e
      | ok fs1 =>
        cases h2 : append_to_json_log fs1 raw_log_name (rawEntry ts msg frames) with
        | error e =>
          simp only [stream_ollama_response, stream_body, h1, h2] at hok
          have hs : s = "Error connecting to Ollama: ".toList ++ e := by
            simpa using hok.symm
          rw [hs]
          exact ollama_err_ne_nil e
        | ok fs2 =>
          simp only [stream_ollama_response, stream_body, h1, h2] at hok
          have hs : s = decoderResult frames := by simpa using hok.symm
          rw [hs]
          exact decoderResult_ne_nil frames

/-- Witness for C7: the empty frame sequence accumulates to the empty
string and the decoder answers with the fallback acknowledgment. -/
theorem decoder_fallback_nonempty_witness :
    decoderResult [] = fallbackText :=
  (decoder_fallback_nonempty.1 []).1 rfl

lemma interpreterResponse_dict (x : PyVal) (xs : List PyVal)
    (es : List (Str × PyVal))
    (hlast : (x :: xs).getLast (List.cons_ne_nil x xs) = PyVal.dict es) :
    interpreterResponse (PyVal.list (x :: xs)) =
      pyOr (dictGet es contentKey) (pyOr (dictGet es outputKey) taskCompleted) := by
  simp only [interpreterResponse, hlast]

lemma interpreterResponse_nondict (x : PyVal) (xs : List PyVal) (last : PyVal)
    (hlast : (x :: xs).getLast (List.cons_ne_nil x xs) = last)
    (hnd : ∀ es, last ≠ PyVal.dict es) :
    interpreterResponse (PyVal.list (x :: xs)) = PyVal.str (pyStr last) := by
  simp only [interpreterResponse, hlast]

lemma taskCompleted_truthy : pyTruthy taskCompleted = true := by decide

lemma pyOr_truthy (a b : PyVal) (hb : pyTruthy b = true) :
    pyTruthy (pyOr a b) = true := by
  unfold pyOr
  by_cases ha : pyTruthy a = true
  · rw [if_pos ha]; exact ha
  · rw [if_neg ha]; exact hb

lemma interpreterResponse_dict_truthy (x : PyVal) (xs : List PyVal)
    (es : List (Str × PyVal))
    (hlast : (x :: xs).getLast (List.cons_ne_nil x xs) = PyVal.dict es) :
    pyTruthy (interpreterResponse (PyVal.list (x :: xs))) = true := by
  rw [interpreterResponse_dict x xs es hlast]
  exact pyOr_truthy _ _ (pyOr_truthy _ _ taskCompleted_truthy)

/-- C3 counterexample: for the backend result [ a dict whose content
field holds the empty string ] the content field is retrievable and its
value is the empty string, yet the adapter output is the fixed
"Task completed." fallback, not that value. -/
theorem adapter_content_counterexample :
    dictGet [(contentKey, PyVal.str [])] contentKey = PyVal.str [] ∧
    interpreterResponse (PyVal.list [PyVal.dict [(contentKey, PyVal.str [])]]) =
      taskCompleted ∧
    taskCompleted ≠ PyVal.str [] := by
  refine ⟨rfl, rfl, ?_⟩
  intro h
  simp only [taskCompleted] at h
  injection h with h1
  exact absurd h1 (by decide)

/-- C3 (amended): for every execution-backend result, if it is a
non-empty sequence the adapter takes the last record; if that record is a
dict, the output is its content value when that is truthy, else its
output value when that is truthy, else the fixed string Task completed.;
if the last record is not a dict the output is its stringification. If
the result is an empty sequence or not a sequence, the output is the
fixed string Task completed. -/
theorem adapter_normalization (result : PyVal) :
    (∀ x xs, result = PyVal.list (x :: xs) →
      (∀ es, (x :: xs).getLast (List.cons_ne_nil x xs) = PyVal.dict es →
        ((pyTruthy (dictGet es contentKey) = true →
            interpreterResponse result = dictGet es contentKey) ∧
         (pyTruthy (dictGet es contentKey) = false →
            pyTruthy (dictGet es outputKey) = true →
            interpreterResponse result = dictGet es outputKey) ∧
         (pyTruthy (dictGet es contentKey) = false →
            pyTruthy (dictGet es outputKey) = false →
            interpreterResponse result = taskCompleted))) ∧
      (∀ last, (x :: xs).getLast (List.cons_ne_nil x xs) = last →
        (∀ es, last ≠ PyVal.dict es) →
        interpreterResponse result = PyVal.str (pyStr last))) ∧
    ((∀ x xs, result ≠ PyVal.list (x :: xs)) →
      interpreterResponse result = taskCompleted) := by
  constructor
  · intro x xs hres
    subst hres
    constructor
    · intro es hlast
      rw [interpreterResponse_dict x xs es hlast]
      refine ⟨?_, ?_, ?_⟩
      · intro hc; simp [pyOr, hc]
      · intro hc ho; simp [pyOr, hc, ho]
      · intro hc ho; simp [pyOr, hc, ho]
    · intro last hlast hnd
      exact interpreterResponse_nondict x xs last hlast hnd
  · intro hnot
    cases result with
    | list xs =>
      cases xs with
      | nil => rfl
      | cons x t => exact absurd rfl (hnot x t)
    | none => rfl
    | str s => rfl
    | int n => rfl
    | dict es => rfl

/-- Witness for C3 (amended): a single dict record with a truthy content
field makes the adapter return that content value. -/
theorem adapter_normalization_witness :
    interpreterResponse
      (PyVal.list [PyVal.dict [(contentKey, PyVal.str "hi".toList)]]) =
      dictGet [(contentKey, PyVal.str "hi".toList)] contentKey :=
  (((adapter_normalization
      (PyVal.list [PyVal.dict [(contentKey, PyVal.str "hi".toList)]])).1
      (PyVal.dict [(contentKey, PyVal.str "hi".toList)]) [] rfl).1
      [(contentKey, PyVal.str "hi".toList)] rfl).1 (by decide)

/-- C10: when the last record is a dict whose content field is falsy
(absent, None, or a falsy value such as the empty string), the adapter
does not return the content value: it returns the output value when that
is truthy and the fixed Task completed. string otherwise; moreover, for a
dict last record the adapter output is never the empty string. -/
theorem adapter_dict_falsy_content (x : PyVal) (xs : List PyVal)
    (es : List (Str × PyVal))
    (hlast : (x :: xs).getLast (List.cons_ne_nil x xs) = PyVal.dict es) :
    (pyTruthy (dictGet es contentKey) = false →
      (interpreterResponse (PyVal.list (x :: xs)) ≠ dictGet es contentKey ∧
       (pyTruthy (dictGet es outputKey) = true →
          interpreterResponse (PyVal.list (x :: xs)) = dictGet es outputKey) ∧
       (pyTruthy (dictGet es outputKey) = false →
          interpreterResponse (PyVal.list (x :: xs)) = taskCompleted))) ∧
    interpreterResponse (PyVal.list (x :: xs)) ≠ PyVal.str [] := by
  have htr := interpreterResponse_dict_truthy x xs es hlast
  constructor
  · intro hc
    refine ⟨?_, ?_, ?_⟩
    · intro h
      rw [h] at htr
      rw [htr] at hc
      exact Bool.noConfusion hc
    · intro ho
      rw [interpreterResponse_dict x xs es hlast]
      simp [pyOr, hc, ho]
    · intro ho
      rw [interpreterResponse_dict x xs es hlast]
      simp [pyOr, hc, ho]
  · intro h
    rw [h] at htr
    exact absurd htr (by decide)

/-- Witness for C10: content present but empty, output truthy, so the
adapter returns the output value. -/
theorem adapter_dict_falsy_content_witness :
    interpreterResponse
      (PyVal.list [PyVal.dict
        [(contentKey, PyVal.str []), (outputKey, PyVal.str "done".toList)]]) =
      dictGet [(contentKey, PyVal.str []), (outputKey, PyVal.str "done".toList)]
        outputKey :=
  ((adapter_dict_falsy_content
      (PyVal.dict [(contentKey, PyVal.str []), (outputKey, PyVal.str "done".toList)])
      [] [(contentKey, PyVal.str []), (outputKey, PyVal.str "done".toList)]
      rfl).1 (by decide)).2.1 (by decide)

lemma fsRead_write_self (fs : FS) (n : Str) (c : FileContent) :
    fsRead (fsWrite fs n c) n = some c := by
  induction fs with
  | nil => simp [fsRead, fsWrite]
  | cons p rest ih =>
    by_cases h : (p.1 == n) = true
    · simp [fsRead, fsWrite, h]
    · simp [fsRead, fsWrite, h, ih]

lemma fsRead_write_ne (fs : FS) (n m : Str) (c : FileContent) (hne : m ≠ n) :
    fsRead (fsWrite fs n c) m = fsRead fs m := by
  have hnm : (n == m) = false := by
    cases hb : (n == m) with
    | false => rfl
    | true => exact absurd (eq_of_beq hb).symm hne
  induction fs with
  | nil => simp [fsRead, fsWrite, hnm]
  | cons p rest ih =>
    by_cases h : (p.1 == n) = true
    · have hp : p.1 = n := eq_of_beq h
      have hpm : (p.1 == m) = false := by rw [hp]; exact hnm
      simp [fsRead, fsWrite, h, hpm, hnm]
    · by_cases hm : (p.1 == m) = true
      · simp [fsRead, fsWrite, h, hm]
      · simp [fsRead, fsWrite, h, hm, ih]

lemma append_ok_spec (fs : FS) (n : Str) (d : PyVal) (fs1 : FS)
    (h : append_to_json_log fs n d = Except.ok fs1) :
    fsEntries fs1 n = fsEntries fs n ++ [d] ∧
    ∀ m, m ≠ n → fsRead fs1 m = fsRead fs m := by
  cases hr : fsRead fs n with
  | none =>
    simp only [append_to_json_log, hr, Except.ok.injEq] at h
    subst h
    refine ⟨?_, fun m hm => fsRead_write_ne fs n m _ hm⟩
    simp [fsEntries, hr, fsRead_write_self]
  | some fc =>
    cases fc with
    | arr xs =>
      simp only [append_to_json_log, hr, Except.ok.injEq] at h
      subst h
      refine ⟨?_, fun m hm => fsRead_write_ne fs n m _ hm⟩
      simp [fsEntries, hr, fsRead_write_self]
    | corrupt => simp [append_to_json_log, hr] at h

lemma appendMany_spec (entries : List PyVal) :
    ∀ (fs : FS) (name : Str) (xs : List PyVal),
    fsRead fs name = some (FileContent.arr xs) →
    ∃ fs1, appendMany fs name entries = Except.ok fs1 ∧
      fsRead fs1 name = some (FileContent.arr (xs ++ entries)) ∧
      ∀ m, m ≠ name → fsRead fs1 m = fsRead fs m := by
  induction entries with
  | nil =>
    intro fs name xs hr
    exact ⟨fs, rfl, by simpa using hr, fun m _ => rfl⟩
  | cons e rest ih =>
    intro fs name xs hr
    have happ : append_to_json_log fs name e =
        Except.ok (fsWrite fs name (FileContent.arr (xs ++ [e]))) := by
      simp [append_to_json_log, hr]
    have hr2 : fsRead (fsWrite fs name (FileContent.arr (xs ++ [e]))) name =
        some (FileContent.arr (xs ++ [e])) := fsRead_write_self fs name _
    rcases ih (fsWrite fs name (FileContent.arr (xs ++ [e]))) name (xs ++ [e]) hr2
      with ⟨fs1, h1, h2, h3⟩
    refine ⟨fs1, ?_, ?_, ?_⟩
    · simp [appendMany, happ, h1]
    · simpa [List.append_assoc] using h2
    · intro m hm
      rw [h3 m hm, fsRead_write_ne fs name m _ hm]

/-- C4: starting from a fresh log name (no file present), appending a
list of entries in sequence succeeds, and reading the log back yields
exactly those entries in append order. -/
theorem log_roundtrip (fs : FS) (name : Str) (entries : List PyVal)
    (hfresh : fsRead fs name = Option.none) :
    exOk (appendMany fs name entries) = true ∧
    ∀ out, appendMany fs name entries = Except.ok out →
      fsEntries out name = entries := by
  cases entries with
  | nil =>
    refine ⟨rfl, ?_⟩
    intro out h
    simp only [appendMany, Except.ok.injEq] at h
    subst h
    simp [fsEntries, hfresh]
  | cons e rest =>
    have happ : append_to_json_log fs name e =
        Except.ok (fsWrite fs name (FileContent.arr [e])) := by
      simp [append_to_json_log, hfresh]
    have hr2 := fsRead_write_self fs name (FileContent.arr [e])
    rcases appendMany_spec rest _ name [e] hr2 with ⟨fs1, h1, h2, _⟩
    constructor
    · simp [appendMany, happ, h1, exOk]
    · intro out h
      simp only [appendMany, happ, h1, Except.ok.injEq] at h
      subst h
      simp [fsEntries, h2]

/-- Witness for C4: two entries appended to a fresh log read back as the
same two entries in order. -/
theorem log_roundtrip_witness :
    fsEntries [("log.json".toList, FileContent.arr [PyVal.int 1, PyVal.int 2])]
      "log.json".toList = [PyVal.int 1, PyVal.int 2] :=
  (log_roundtrip [] "log.json".toList [PyVal.int 1, PyVal.int 2] rfl).2
    [("log.json".toList, FileContent.arr [PyVal.int 1, PyVal.int 2])] rfl

/-- C5: appending one entry to an existing log of K entries succeeds and
yields a log of K+1 entries whose first K entries are unchanged, and no
other log is touched. -/
theorem log_append_frame (fs : FS) (name : Str) (xs : List PyVal) (e : PyVal)
    (hex : fsRead fs name = some (FileContent.arr xs)) :
    exOk (append_to_json_log fs name e) = true ∧
    ∀ fs1, append_to_json_log fs name e = Except.ok fs1 →
      fsEntries fs1 name = xs ++ [e] ∧
      (fsEntries fs1 name).length = xs.length + 1 ∧
      (fsEntries fs1 name).take xs.length = xs ∧
      ∀ m, m ≠ name → fsRead fs1 m = fsRead fs m := by
  have happ : append_to_json_log fs name e =
      Except.ok (fsWrite fs name (FileContent.arr (xs ++ [e]))) := by
    simp [append_to_json_log, hex]
  refine ⟨by simp [happ, exOk], ?_⟩
  intro fs1 h
  rw [happ, Except.ok.injEq] at h
  subst h
  have hr := fsRead_write_self fs name (FileContent.arr (xs ++ [e]))
  refine ⟨by simp [fsEntries, hr], by simp [fsEntries, hr],
    by simp [fsEntries, hr, List.take_left], ?_⟩
  intro m hm
  exact fsRead_write_ne fs name m _ hm

/-- Witness for C5: appending one entry to a one-entry log yields the
two entries in order. -/
theorem log_append_frame_witness :
    fsEntries [("other.json".toList, FileContent.arr [PyVal.int 1, PyVal.int 2])]
      "other.json".toList = [PyVal.int 1] ++ [PyVal.int 2] :=
  (((log_append_frame [("other.json".toList, FileContent.arr [PyVal.int 1])]
      "other.json".toList [PyVal.int 1] (PyVal.int 2) rfl).2
    [("other.json".toList, FileContent.arr [PyVal.int 1, PyVal.int 2])] rfl).1)

lemma execute_always_ok (fs : FS) (task ts : Str) (einp : Except Err PyVal) :
    exOk (execute_with_interpreter fs task ts einp).2 = true := by
  rcases hb : exec_body fs task ts einp with ⟨fs1, r⟩
  cases r with
  | ok v => simp [execute_with_interpreter, hb, exOk]
  | error e => simp [execute_with_interpreter, hb, exOk]

lemma stream_always_ok (fs : FS) (msg ts : Str) (dinp : DecoderInput) :
    exOk (stream_ollama_response fs msg ts dinp).2 = true := by
  rcases hb : stream_body fs msg ts dinp with ⟨fs1, r⟩
  cases r with
  | ok v => simp [stream_ollama_response, hb, exOk]
  | error e => simp [stream_ollama_response, hb, exOk]

lemma process_always_ok (fs : FS) (msg : Str) (force : Bool) (ts : Str)
    (dinp : DecoderInput) (einp : Except Err PyVal) :
    exOk (process_message fs msg force ts dinp einp).2 = true := by
  cases hroute : routeOf msg force with
  | Execution =>
    simpa [process_message, hroute] using execute_always_ok fs msg ts einp
  | Generation =>
    have hs := stream_always_ok fs msg ts dinp
    rcases hsr : stream_ollama_response fs msg ts dinp with ⟨fs1, r⟩
    rw [hsr] at hs
    cases r with
    | ok s => simp [process_message, hroute, hsr, exOk]
    | error e => simp [exOk] at hs

/-- C6: a log persistence fault (modelled by an existing log file that
json.load cannot read as the expected structure) propagates out of
append_to_json_log to its caller as a raised condition, and it is the
only fault that propagates: the entry points never let a fault in
routing, decoding or execution escape as a raised exception, whatever
the transport outcome, frame sequence, backend result or log state. -/
theorem log_fault_propagation :
    (∀ fs name data, fsRead fs name = some FileContent.corrupt →
      exOk (append_to_json_log fs name data) = false) ∧
    (∀ fs task ts einp, exOk (execute_with_interpreter fs task ts einp).2 = true) ∧
    (∀ fs msg ts dinp, exOk (stream_ollama_response fs msg ts dinp).2 = true) ∧
    (∀ fs msg force ts dinp einp,
      exOk (process_message fs msg force ts dinp einp).2 = true) := by
  refine ⟨?_, execute_always_ok, stream_always_ok, process_always_ok⟩
  intro fs name data h
  simp [append_to_json_log, h, exOk]

/-- Witness for C6: appending to a corrupt log raises to the caller. -/
theorem log_fault_propagation_witness :
    exOk (append_to_json_log [("x.json".toList, FileContent.corrupt)]
      "x.json".toList (PyVal.int 0)) = false :=
  log_fault_propagation.1 [("x.json".toList, FileContent.corrupt)]
    "x.json".toList (PyVal.int 0) rfl

/-- C8: a fault in the network phase of the decoder (connection setup,
request send or frame read) is caught inside the decoder, which returns
the descriptive error string with the exception message appended and
leaves the log state untouched; the decoder never raises on any input. -/
theorem decoder_transport_error_string :
    (∀ fs msg ts frames e,
      stream_ollama_response fs msg ts ⟨some e, frames⟩ =
        (fs, Except.ok ("Error connecting to Ollama: ".toList ++ e))) ∧
    (∀ fs msg ts dinp, exOk (stream_ollama_response fs msg ts dinp).2 = true) := by
  exact ⟨fun fs msg ts frames e => rfl, stream_always_ok⟩

lemma stream_body_ok_logs (fs : FS) (msg ts : Str) (inp : DecoderInput)
    (fs2 : FS) (s : Str) (h : stream_body fs msg ts inp = (fs2, Except.ok s)) :
    fsEntries fs2 clean_log_name =
      fsEntries fs clean_log_name ++ [cleanEntry ts msg inp.frames] ∧
    fsEntries fs2 raw_log_name =
      fsEntries fs raw_log_name ++ [rawEntry ts msg inp.frames] ∧
    ∀ m, m ≠ clean_log_name → m ≠ raw_log_name → fsRead fs2 m = fsRead fs m := by
  rcases inp with ⟨tr, frames⟩
  cases tr with
  | some e => simp [stream_body] at h
  | none =>
    cases h1 : append_to_json_log fs clean_log_name (cleanEntry ts msg frames) with
    | error e => simp [stream_body, h1] at h
    | ok fsa =>
      cases h2 : append_to_json_log fsa raw_log_name (rawEntry ts msg frames) with
      | error e => simp [stream_body, h1, h2] at h
      | ok fsb =>
        simp only [stream_body, h1, h2, Prod.mk.injEq, Except.ok.injEq] at h
        rcases h with ⟨hfs, _⟩
        subst hfs
        rcases append_ok_spec fs clean_log_name _ fsa h1 with ⟨ha1, ha2⟩
        rcases append_ok_spec fsa raw_log_name _ _ h2 with ⟨hb1, hb2⟩
        have hcr : clean_log_name ≠ raw_log_name := by decide
        refine ⟨?_, ?_, ?_⟩
        · rw [show fsEntries fsb clean_log_name = fsEntries fsa clean_log_name by
            simp [fsEntries, hb2 clean_log_name hcr]]
          exact ha1
        · rw [hb1]
          have : fsEntries fsa raw_log_name = fsEntries fs raw_log_name := by
            simp [fsEntries, ha2 raw_log_name (Ne.symm hcr)]
          rw [this]
        · intro m hm1 hm2
          rw [hb2 m hm2, ha2 m hm1]

lemma exec_body_ok_logs (fs : FS) (task ts : Str) (einp : Except Err PyVal)
    (fs1 : FS) (r : PyVal) (h : exec_body fs task ts einp = (fs1, Except.ok r)) :
    fsEntries fs1 exec_log_name =
      fsEntries fs exec_log_name ++ [logEntry ts task r] ∧
    ∀ m, m ≠ exec_log_name → fsRead fs1 m = fsRead fs m := by
  cases einp with
  | error e => simp [exec_body] at h
  | ok result =>
    cases h1 : append_to_json_log fs exec_log_name
        (logEntry ts task (interpreterResponse result)) with
    | error e => simp [exec_body, h1] at h
    | ok fsa =>
      simp only [exec_body, h1, Prod.mk.injEq, Except.ok.injEq] at h
      rcases h with ⟨hfs, hr⟩
      subst hfs
      subst hr
      exact append_ok_spec fs exec_log_name _ _ h1

/-- C9 (amended): the three log names are pairwise distinct; every
successfully completed generation call appends exactly one entry to the
clean log and exactly one to the raw log and touches no other log; every
successfully completed execution call appends exactly one entry to the
execution log and touches no other log. -/
theorem transcript_entry_counts :
    (clean_log_name ≠ raw_log_name ∧ clean_log_name ≠ exec_log_name ∧
      raw_log_name ≠ exec_log_name) ∧
    (∀ fs msg ts inp fs2 s, stream_body fs msg ts inp = (fs2, Except.ok s) →
      (fsEntries fs2 clean_log_name).length =
        (fsEntries fs clean_log_name).length + 1 ∧
      (fsEntries fs2 raw_log_name).length =
        (fsEntries fs raw_log_name).length + 1 ∧
      fsEntries fs2 clean_log_name =
        fsEntries fs clean_log_name ++ [cleanEntry ts msg inp.frames] ∧
      fsEntries fs2 raw_log_name =
        fsEntries fs raw_log_name ++ [rawEntry ts msg inp.frames] ∧
      ∀ m, m ≠ clean_log_name → m ≠ raw_log_name →
        fsRead fs2 m = fsRead fs m) ∧
    (∀ fs task ts einp fs1 r, exec_body fs task ts einp = (fs1, Except.ok r) →
      (fsEntries fs1 exec_log_name).length =
        (fsEntries fs exec_log_name).length + 1 ∧
      fsEntries fs1 exec_log_name =
        fsEntries fs exec_log_name ++ [logEntry ts task r] ∧
      ∀ m, m ≠ exec_log_name → fsRead fs1 m = fsRead fs m) := by
  refine ⟨⟨by decide, by decide, by decide⟩, ?_, ?_⟩
  · intro fs msg ts inp fs2 s h
    rcases stream_body_ok_logs fs msg ts inp fs2 s h with ⟨h1, h2, h3⟩
    exact ⟨by simp [h1], by simp [h2], h1, h2, h3⟩
  · intro fs task ts einp fs1 r h
    rcases exec_body_ok_logs fs task ts einp fs1 r h with ⟨h1, h2⟩
    exact ⟨by simp [h1], h1, h2⟩

/-- C9 counterexample: an execution call whose backend invocation raises
persists no transcript entry at all: from an empty log directory, the
execution log is still empty after the failed call. -/
theorem execution_failure_no_entry :
    fsEntries (execute_with_interpreter [] "task".toList "ts".toList
      (Except.error "boom".toList)).1 exec_log_name = [] := rfl

/-- Witness for C9 (amended): a successful execution call on an empty
log directory leaves exactly one entry in the execution log. -/
theorem transcript_entry_counts_witness :
    fsEntries [(exec_log_name,
        FileContent.arr [logEntry "ts".toList "t".toList taskCompleted])]
      exec_log_name =
      fsEntries ([] : FS) exec_log_name ++
        [logEntry "ts".toList "t".toList taskCompleted] :=
  (transcript_entry_counts.2.2 [] "t".toList "ts".toList
    (Except.ok (PyVal.list []))
    [(exec_log_name, FileContent.arr [logEntry "ts".toList "t".toList taskCompleted])]
    taskCompleted rfl).2.1

end OI
